import Mathlib

/-!
Verification of the business-rule debugger:
a shallow embedding of `src/app/api/python/debug-execute/ast-debugger.py`
(the class `BusinessRuleDebugger` and the entry point `debug_business_rule`)
and of the step-control marker of `test-output-instrumented.py`.

Python values are modelled by `Val`; mutable objects (lists, record
instances) live behind numeric references into an explicit `Heap`, so the
reference semantics of the source (aliasing between a live binding and a
captured snapshot entry) is visible.  Dictionaries mutated in place
(`self.locals`, step dictionaries) become association lists threaded through
the state.  `print` side effects are modelled as an emitted list of lines
returned alongside each result.  Recursion through the heap (json-encoding
test, `str`/`repr` rendering) is bounded by an explicit fuel parameter; the
interpreter always passes fuel larger than the heap, which is exact on the
acyclic heaps the restricted language builds.
-/

namespace BR

/-- A runtime value.  Scalars are immutable; `listRef`/`recRef` are
references into the heap (Python object identity); `fn` is a function
object such as the `log_message` helper installed by `setup_environment`. -/
inductive Val where
  | bool (b : Bool)
  | int (n : Int)
  | str (s : String)
  | pynone
  | listRef (r : Nat)
  | recRef (r : Nat)
  | fn (fname : String)
deriving DecidableEq

/-- A heap object: a mutable Python list, or a record instance (an object
with named mutable fields, such as the `Test` instances of
`test-output-instrumented.py`). -/
inductive HObj where
  | hlist (elems : List Val)
  | hrec (cls : String) (fields : List (String × Val))
deriving DecidableEq

abbrev Heap := List HObj

abbrev Env := List (String × Val)

/-- Whether `json.dumps` succeeds on a value (`capture_step`, line 70 of
ast-debugger.py): scalars and `None` encode, lists encode when every
element does, record instances and function objects raise `TypeError`.
`fuel` bounds the heap chase; fuel 0 answers `false`, matching the
`ValueError` `json.dumps` raises on a circular structure. -/
def encodableF (fuel : Nat) (h : Heap) (v : Val) : Bool :=
  match fuel, v with
  | 0, _ => false
  | _ + 1, .bool _ => true
  | _ + 1, .int _ => true
  | _ + 1, .str _ => true
  | _ + 1, .pynone => true
  | f + 1, .listRef r =>
    match h[r]? with
    | some (.hlist es) => es.all (fun w => encodableF f h w)
    | _ => false
  | _ + 1, .recRef _ => false
  | _ + 1, .fn _ => false

/-- Python `repr` of a value, as used in the step descriptions
(`f"\x7btarget.id\x7d = \x7brepr(value)\x7d"`).  The memory addresses that
CPython embeds in default function/object reprs are stood in for by the
heap index: faithful within one run, but it makes captured text
deterministic where the host's (address-dependent, varying between runs)
is not. -/
def reprValF (fuel : Nat) (h : Heap) (v : Val) : String :=
  match fuel, v with
  | 0, _ => "..."
  | _ + 1, .bool true => "True"
  | _ + 1, .bool false => "False"
  | _ + 1, .int n => toString n
  | _ + 1, .str s => "\x27" ++ s ++ "\x27"
  | _ + 1, .pynone => "None"
  | f + 1, .listRef r =>
    match h[r]? with
    | some (.hlist es) =>
      "[" ++ String.intercalate ", " (es.map (fun w => reprValF f h w)) ++ "]"
    | _ => "<list>"
  | _ + 1, .recRef r =>
    match h[r]? with
    | some (.hrec cls _) => "<" ++ cls ++ " object at 0x" ++ toString r ++ ">"
    | _ => "<object>"
  | _ + 1, .fn fname => "<function " ++ fname ++ ">"

/-- Python `str` of a value: a string renders without quotes, everything
else as its `repr`.  Used by the `str(value)` fallback in `capture_step`
and by the f-strings of `log_message` and `visit_If`. -/
def strValF (fuel : Nat) (h : Heap) (v : Val) : String :=
  match v with
  | .str s => s
  | _ => reprValF fuel h v

/-- One binding as `capture_step` stores it (lines 67-73 of
ast-debugger.py): the value itself when `json.dumps` accepts it — a shared
reference, not a copy — and otherwise its `str` form. -/
def cleanVar (fuel : Nat) (h : Heap) (v : Val) : Val :=
  if encodableF fuel h v then v else .str (strValF fuel h v)

/-- The `clean_vars` loop of `capture_step`: every binding is cleaned
independently. -/
def captureVars (fuel : Nat) (h : Heap) (env : Env) : Env :=
  env.map (fun p => (p.1, cleanVar fuel h p.2))

/-- Literal constants (`ast.Constant`). -/
inductive Const where
  | cbool (b : Bool)
  | cint (n : Int)
  | cstr (s : String)
  | cnone
deriving DecidableEq

/-- The expression fragment the debugged rules use, as compiled and run by
`eval_expression` (lines 111-117 of ast-debugger.py): literals, names,
list displays, calls `f(args)` with a plain name in function position,
method calls `obj.m(args)`, and the binary operator `//`. -/
inductive Expr where
  | const (c : Const)
  | name (id : String)
  | listLit (elems : List Expr)
  | call (fname : String) (args : List Expr)
  | methodCall (obj : Expr) (meth : String) (args : List Expr)
  | floorDiv (a b : Expr)

/-- An assignment target: a plain name (`ast.Name`) or an attribute path
(`ast.Attribute`, e.g. `newCls.age`). -/
inductive Target where
  | name (id : String)
  | attr (obj : Expr) (fld : String)

/-- The statement forms the tree walker dispatches on: `visit_Assign`,
`visit_If` and `visit_Expr`.  Each carries its source line (`node.lineno`). -/
inductive Stmt where
  | assign (line : Nat) (targets : List Target) (value : Expr)
  | ifStmt (line : Nat) (test : Expr) (body : List Stmt) (orelse : List Stmt)
  | exprStmt (line : Nat) (value : Expr)

/-- The runtime failures the embedded fragment can raise: `NameError`,
`ZeroDivisionError`, the `TypeError`s of calls and operators, and
`AttributeError`.  `Err.msg` renders `str(e)` as `execute_code` does. -/
inductive Err where
  | nameErr (id : String)
  | zeroDiv
  | notCallable
  | noLen
  | badAbs
  | missingLogArg
  | noAttr (meth : String)
  | badRef
  | badOperand
deriving DecidableEq

def Err.msg : Err → String
  | .nameErr id => "name \x27" ++ id ++ "\x27 is not defined"
  | .zeroDiv => "integer division or modulo by zero"
  | .notCallable => "object is not callable"
  | .noLen => "object has no len()"
  | .badAbs => "bad operand type for abs()"
  | .missingLogArg =>
    "log_message() missing 1 required positional argument: \x27message\x27"
  | .noAttr meth => "object has no attribute " ++ meth
  | .badRef => "invalid object reference"
  | .badOperand => "unsupported operand type(s) for //"

/-- One debug step dictionary.  Steps appended by `capture_step` have no
`error` key; the terminal step appended by `execute_code` on failure does. -/
structure StepRec where
  line : Nat
  vars : Env
  output : String
  error : Option String
deriving DecidableEq

/-- The mutable state of a `BusinessRuleDebugger` instance: `self.steps`,
`self.locals`, `self.line_number`, plus the explicit heap behind the
reference-valued bindings.  `self.globals` is the fixed registry installed
by `setup_environment`, modelled by `lookupName` below. -/
structure BusinessRuleDebugger where
  steps : List StepRec
  locals : Env
  heap : Heap
  line_number : Nat
deriving DecidableEq

/-- `BusinessRuleDebugger.__init__` (lines 17-24): empty steps, empty
bindings, line number 0. -/
def initDebugger : BusinessRuleDebugger :=
  { steps := [], locals := [], heap := [], line_number := 0 }

/-- Association-list lookup with Python-dict semantics (first match; keys
are unique because `setVar` updates in place). -/
def lookupVar (env : Env) (k : String) : Option Val :=
  match env with
  | [] => Option.none
  | p :: rest => if p.1 == k then some p.2 else lookupVar rest k

/-- `self.locals[id] = value`: update the existing entry in place, else
append — Python dicts keep insertion order. -/
def setVar (env : Env) (k : String) (v : Val) : Env :=
  match env with
  | [] => [(k, v)]
  | p :: rest => if p.1 == k then (k, v) :: rest else p :: setVar rest k v

/-- The helper registry `setup_environment` (lines 26-37) installs in
`self.globals`: `log_message` and its alias `log`. -/
def registryNames : List String := ["log_message", "log"]

/-- A representative fragment of the host `__builtins__` object that
`setup_environment` also places into `self.globals` (line 36), making every
Python builtin resolvable from rule expressions.  Only pure builtins are
modelled here: the real object also exposes impure ones (`setattr`,
`getattr`, `open`, `__import__`, ...) and is one shared mutable module
object for every debugger instance in the process, so rule code can move
data between otherwise independent calls through it.  This embedding
therefore models a single run only; nothing in it expresses isolation or
determinism across calls, which the shared object in fact breaks. -/
def builtinNames : List String := ["len", "abs", "print"]

/-- Name resolution of `eval(code, self.globals, self.locals)`: locals
first, then the globals registry, then `__builtins__`; otherwise the
evaluation raises `NameError`. -/
def lookupName (env : Env) (id : String) : Except Err Val :=
  match lookupVar env id with
  | some v => Except.ok v
  | Option.none =>
    if registryNames.contains id then Except.ok (.fn "log_message")
    else if builtinNames.contains id then Except.ok (.fn id)
    else Except.error (.nameErr id)

/-- Python truthiness, as used by `if condition:` in `visit_If`. -/
def truthy (h : Heap) (v : Val) : Bool :=
  match v with
  | .bool b => b
  | .int n => n != 0
  | .str s => s != ""
  | .pynone => false
  | .listRef r =>
    match h[r]? with
    | some (.hlist es) => !es.isEmpty
    | _ => true
  | .recRef _ => true
  | .fn _ => true

/-- Apply a function value to evaluated arguments.  `log_message` (lines
29-31) prints `"LOG: <message>"` and returns the message; the modelled
builtins behave as in the host.  Returns the heap, the printed lines and
the result.  Only the pure builtins of `builtinNames` are applicable here;
the host's impure builtins and their process-wide side effects are outside
this model (see `builtinNames`). -/
def applyFn (h : Heap) (fname : String) (vs : List Val) :
    Heap × List String × Except Err Val :=
  let fuel := h.length + 1
  if fname == "log_message" then
    match vs with
    | m :: _ => (h, ["LOG: " ++ strValF fuel h m], Except.ok m)
    | [] => (h, [], Except.error .missingLogArg)
  else if fname == "len" then
    match vs with
    | [.str s] => (h, [], Except.ok (.int s.length))
    | [.listRef r] =>
      match h[r]? with
      | some (.hlist es) => (h, [], Except.ok (.int es.length))
      | _ => (h, [], Except.error .badRef)
    | _ => (h, [], Except.error .noLen)
  else if fname == "abs" then
    match vs with
    | [.int n] => (h, [], Except.ok (.int (if n < 0 then -n else n)))
    | _ => (h, [], Except.error .badAbs)
  else if fname == "print" then
    (h, [String.intercalate " " (vs.map (fun v => strValF fuel h v))],
     Except.ok .pynone)
  else (h, [], Except.error .notCallable)

def constVal : Const → Val
  | .cbool b => .bool b
  | .cint n => .int n
  | .cstr s => .str s
  | .cnone => .pynone

mutual

/-- `eval_expression` (lines 111-117): evaluate an expression against
`self.locals` and the sandless globals, with Python evaluation order
(function before arguments, receiver before arguments, left before right).
Returns the possibly mutated heap, the lines printed during evaluation and
the value or the raised error. -/
def eval_expression (env : Env) (h : Heap) :
    Expr → Heap × List String × Except Err Val
  | .const c => (h, [], Except.ok (constVal c))
  | .name id => (h, [], lookupName env id)
  | .listLit es =>
    match eval_arg_list env h es with
    | (h1, d, Except.error e) => (h1, d, Except.error e)
    | (h1, d, Except.ok vs) => (h1 ++ [.hlist vs], d, Except.ok (.listRef h1.length))
  | .call fname args =>
    match lookupName env fname with
    | Except.error e => (h, [], Except.error e)
    | Except.ok fv =>
      match eval_arg_list env h args with
      | (h1, d, Except.error e) => (h1, d, Except.error e)
      | (h1, d, Except.ok vs) =>
        match fv with
        | .fn f =>
          match applyFn h1 f vs with
          | (h2, d2, r) => (h2, d ++ d2, r)
        | _ => (h1, d, Except.error .notCallable)
  | .methodCall obj meth args =>
    match eval_expression env h obj with
    | (h1, d1, Except.error e) => (h1, d1, Except.error e)
    | (h1, d1, Except.ok ov) =>
      match eval_arg_list env h1 args with
      | (h2, d2, Except.error e) => (h2, d1 ++ d2, Except.error e)
      | (h2, d2, Except.ok vs) =>
        match ov, meth, vs with
        | .listRef r, "append", [v] =>
          match h2[r]? with
          | some (.hlist es) =>
            (h2.set r (.hlist (es ++ [v])), d1 ++ d2, Except.ok .pynone)
          | _ => (h2, d1 ++ d2, Except.error .badRef)
        | _, _, _ =>
          (h2, d1 ++ d2, Except.error (.noAttr meth))
  | .floorDiv a b =>
    match eval_expression env h a with
    | (h1, d1, Except.error e) => (h1, d1, Except.error e)
    | (h1, d1, Except.ok va) =>
      match eval_expression env h1 b with
      | (h2, d2, Except.error e) => (h2, d1 ++ d2, Except.error e)
      | (h2, d2, Except.ok vb) =>
        match va, vb with
        | .int x, .int y =>
          if y == 0 then (h2, d1 ++ d2, Except.error .zeroDiv)
          else (h2, d1 ++ d2, Except.ok (.int (Int.fdiv x y)))
        | _, _ =>
          (h2, d1 ++ d2,
           Except.error .badOperand)

/-- Left-to-right evaluation of an expression list (call arguments, list
display elements), stopping at the first error. -/
def eval_arg_list (env : Env) (h : Heap) :
    List Expr → Heap × List String × Except Err (List Val)
  | [] => (h, [], Except.ok [])
  | e :: es =>
    match eval_expression env h e with
    | (h1, d1, Except.error er) => (h1, d1, Except.error er)
    | (h1, d1, Except.ok v) =>
      match eval_arg_list env h1 es with
      | (h2, d2, Except.error er) => (h2, d1 ++ d2, Except.error er)
      | (h2, d2, Except.ok vs) => (h2, d1 ++ d2, Except.ok (v :: vs))

end

mutual

/-- `expr_to_string` (lines 119-121), Python's `ast.unparse`. -/
def expr_to_string : Expr → String
  | .const (.cbool true) => "True"
  | .const (.cbool false) => "False"
  | .const (.cint n) => toString n
  | .const (.cstr s) => "\x27" ++ s ++ "\x27"
  | .const .cnone => "None"
  | .name id => id
  | .listLit es => "[" ++ exprListToString es ++ "]"
  | .call fname args => fname ++ "(" ++ exprListToString args ++ ")"
  | .methodCall obj meth args =>
    expr_to_string obj ++ "." ++ meth ++ "(" ++ exprListToString args ++ ")"
  | .floorDiv a b => expr_to_string a ++ " // " ++ expr_to_string b

def exprListToString : List Expr → String
  | [] => ""
  | [e] => expr_to_string e
  | e :: es => expr_to_string e ++ ", " ++ exprListToString es

end

/-- `capture_step` (lines 62-79): set `self.line_number` from the node,
clean every binding of `self.locals` for JSON and append one step
dictionary.  The fuel passed to the cleaning pass exceeds the heap size,
so the encoding test is exact on acyclic heaps. -/
def capture_step (s : BusinessRuleDebugger) (lineno : Nat) (description : String) :
    BusinessRuleDebugger :=
  { s with
    line_number := lineno,
    steps := s.steps ++
      [{ line := lineno,
         vars := captureVars (s.heap.length + 1) s.heap s.locals,
         output := description,
         error := Option.none }] }

/-- The target loop of `visit_Assign` (lines 86-90): bind and capture one
step per `ast.Name` target; any other target kind is skipped silently. -/
def assignTargets (line : Nat) (v : Val) (s : BusinessRuleDebugger) :
    List Target → BusinessRuleDebugger
  | [] => s
  | .name id :: ts =>
    let s1 := { s with locals := setVar s.locals id v }
    let s2 := capture_step s1 line
      (id ++ " = " ++ reprValF (s1.heap.length + 1) s1.heap v)
    assignTargets line v s2 ts
  | .attr _ _ :: ts => assignTargets line v s ts

mutual

/-- The visitor dispatch (`ast.NodeVisitor.visit`) restricted to the three
handled statement kinds: `visit_Assign` (lines 81-90), `visit_If` (lines
92-104) and `visit_Expr` (lines 106-109).  `visit_If` is embedded exactly
as written: it captures a step for the test and then iterates
`node.orelse` in BOTH arms of `if condition:`. -/
def visit (s : BusinessRuleDebugger) :
    Stmt → BusinessRuleDebugger × List String × Option Err
  | .assign line targets value =>
    match eval_expression s.locals s.heap value with
    | (h1, d, Except.error e) => ({ s with heap := h1 }, d, some e)
    | (h1, d, Except.ok v) =>
      (assignTargets line v { s with heap := h1 } targets, d, Option.none)
  | .ifStmt line test _body orelse =>
    match eval_expression s.locals s.heap test with
    | (h1, d, Except.error e) => ({ s with heap := h1 }, d, some e)
    | (h1, d, Except.ok condition) =>
      let s1 := { s with heap := h1 }
      let s2 := capture_step s1 line
        ("if " ++ expr_to_string test ++ ": # " ++
         strValF (s1.heap.length + 1) s1.heap condition)
      if truthy s1.heap condition then
        match visitList s2 orelse with
        | (s3, d2, r) => (s3, d ++ d2, r)
      else
        match visitList s2 orelse with
        | (s3, d2, r) => (s3, d ++ d2, r)
  | .exprStmt line value =>
    match eval_expression s.locals s.heap value with
    | (h1, d, Except.error e) => ({ s with heap := h1 }, d, some e)
    | (h1, d, Except.ok v) =>
      let s1 := { s with heap := h1 }
      (capture_step s1 line
        ("Expression result: " ++ reprValF (s1.heap.length + 1) s1.heap v),
       d, Option.none)

/-- Visit statements in order (the `for node in tree.body` loop of
`execute_code`, and the branch loops of `visit_If`), stopping at the first
raised error. -/
def visitList (s : BusinessRuleDebugger) :
    List Stmt → BusinessRuleDebugger × List String × Option Err
  | [] => (s, [], Option.none)
  | st :: rest =>
    match visit s st with
    | (s1, d1, some e) => (s1, d1, some e)
    | (s1, d1, Option.none) =>
      match visitList s1 rest with
      | (s2, d2, r) => (s2, d1 ++ d2, r)

end

/-- `execute_code` (lines 39-60): run the statements; on any raised error
keep the steps gathered so far and append one terminal step carrying
`str(e)` and the raw (uncleaned) `dict(self.locals)`. -/
def execute_code (s : BusinessRuleDebugger) (prog : List Stmt) :
    List StepRec × BusinessRuleDebugger × List String :=
  match visitList s prog with
  | (s1, d, Option.none) => (s1.steps, s1, d)
  | (s1, d, some e) =>
    let terminal : StepRec :=
      { line := s1.line_number,
        vars := s1.locals,
        output := "Error: " ++ e.msg,
        error := some e.msg }
    (s1.steps ++ [terminal], { s1 with steps := s1.steps ++ [terminal] }, d)

/-- The result object of `debug_business_rule` (lines 123-133). -/
structure RuleResult where
  success : Bool
  debugSteps : List StepRec
deriving DecidableEq

/-- `debug_business_rule` (lines 123-133): construct a fresh
`BusinessRuleDebugger` and run the parsed source, always reporting
`success = True`. -/
def debug_business_rule (prog : List Stmt) : RuleResult :=
  { success := true, debugSteps := (execute_code initDebugger prog).1 }

/-- The `step_control` dictionary of `test-output-instrumented.py`
(line 7): `\x7b"current_step": 0, "mode": "step", "target_step": 1\x7d`. -/
structure StepControl where
  current_step : Nat
  mode : String
  target_step : Nat
deriving DecidableEq

def initStepControl : StepControl :=
  { current_step := 0, mode := "step", target_step := 1 }

/-- `__STEP_CONTROL__` (lines 9-11 of test-output-instrumented.py):
increment the running counter and return True (continue). -/
def stepControlCall (sc : StepControl) : StepControl × Bool :=
  ({ sc with current_step := sc.current_step + 1 }, true)

/-- `k` consecutive marker invocations. -/
def iterateMarker : Nat → StepControl → StepControl
  | 0, sc => sc
  | k + 1, sc => iterateMarker k (stepControlCall sc).1

/-- Modelled from the spec: the loop-with-completion-branch semantics
(spec 4.3, "Loop with loop-completion branch").  The tree-walking
interpreter of ast-debugger.py defines no `visit_For`/`visit_Break`, and
the instrumentation rewriter itself is not among the source files — only
its output (`test-output-instrumented.py`, whose `for testcls in
testClasses: ... break ... else: ...` runs under Python's native for/else
rules).  Each iteration yields the steps its body emits (a step for a
reached `break` included) and whether a `break` was reached; when the
sequence is exhausted without a `break`, the completion branch's steps
`elseSteps` run once. -/
def runForElse {α β : Type} (body : α → List β × Bool) (elseSteps : List β) :
    List α → List β
  | [] => elseSteps
  | x :: xs =>
    match body x with
    | (st, true) => st
    | (st, false) => st ++ runForElse body elseSteps xs

/-- Whether a target is a plain `ast.Name` (the only kind `visit_Assign`
handles). -/
def isNameTarget : Target → Bool
  | .name _ => true
  | .attr _ _ => false

/-- `x = True` followed by `if x: log_message("A") else: log_message("B")`. -/
def progC1 : List Stmt :=
  [.assign 1 [.name "x"] (.const (.cbool true)),
   .ifStmt 2 (.name "x")
     [.exprStmt 3 (.call "log_message" [.const (.cstr "A")])]
     [.exprStmt 5 (.call "log_message" [.const (.cstr "B")])]]

/-- The spec's concrete scenario: `new_bool = True`, `new_bool = False`,
then `if new_bool: log_message("m") else: log_message("b")`. -/
def progC2 : List Stmt :=
  [.assign 1 [.name "new_bool"] (.const (.cbool true)),
   .assign 2 [.name "new_bool"] (.const (.cbool false)),
   .ifStmt 3 (.name "new_bool")
     [.exprStmt 4 (.call "log_message" [.const (.cstr "m")])]
     [.exprStmt 6 (.call "log_message" [.const (.cstr "b")])]]

/-- A single assignment whose only target is an attribute path: `r.age = 5`. -/
def progC4 : List Stmt :=
  [.assign 1 [.attr (.name "r") "age"] (.const (.cint 5))]

/-- `lst = [1]` then `lst.append(2)`: mutation of a JSON-encodable value
after its snapshot was captured. -/
def progC5 : List Stmt :=
  [.assign 1 [.name "lst"] (.listLit [.const (.cint 1)]),
   .exprStmt 2 (.methodCall (.name "lst") "append" [.const (.cint 2)])]

/-- `f = log_message` (an unencodable binding) followed by `1 // 0`. -/
def progC6 : List Stmt :=
  [.assign 1 [.name "f"] (.name "log_message"),
   .exprStmt 2 (.floorDiv (.const (.cint 1)) (.const (.cint 0)))]

/-- A program whose only statement raises `ZeroDivisionError`: `7 // 0`. -/
def progC7 : List Stmt :=
  [.exprStmt 1 (.floorDiv (.const (.cint 7)) (.const (.cint 0)))]

/-- `x = len("abc")`: a builtin outside the registry used from a rule. -/
def progC8 : List Stmt :=
  [.assign 1 [.name "x"] (.call "len" [.const (.cstr "abc")])]

/-- A concrete loop body for exercising `runForElse`, shaped like the
`testClasses` loop of test-output-instrumented.py: one step per element,
`break` on the element equal to 4. -/
def bodyW (n : Nat) : List String × Bool := ([toString n], n == 4)

theorem lookupVar_setVar_self (env : Env) (k : String) (v : Val) :
    lookupVar (setVar env k v) k = some v := by
  induction env with
  | nil => simp [setVar, lookupVar]
  | cons p rest ih =>
    by_cases hp : p.1 = k
    · simp [setVar, hp, lookupVar]
    · simp [setVar, hp, lookupVar, ih]

theorem lookupVar_setVar_other (env : Env) (k k2 : String) (v : Val)
    (hne : k2 ≠ k) : lookupVar (setVar env k v) k2 = lookupVar env k2 := by
  have hne2 : ¬ k = k2 := fun h => hne h.symm
  induction env with
  | nil => simp [setVar, lookupVar, hne2]
  | cons p rest ih =>
    by_cases hp : p.1 = k
    · simp [setVar, hp, lookupVar, hne2]
    · simp [setVar, hp, lookupVar, ih]

theorem assignTargets_heap (line : Nat) (v : Val) (ts : List Target) :
    ∀ s : BusinessRuleDebugger, (assignTargets line v s ts).heap = s.heap := by
  induction ts with
  | nil => intro s; rfl
  | cons t rest ih =>
    intro s
    cases t with
    | name id => simp [assignTargets, ih, capture_step]
    | attr o f => simp [assignTargets, ih]

theorem assignTargets_steps_len (line : Nat) (v : Val) (ts : List Target) :
    ∀ s : BusinessRuleDebugger,
      (assignTargets line v s ts).steps.length
        = s.steps.length + (ts.filter (fun t => isNameTarget t)).length := by
  induction ts with
  | nil => intro s; simp [assignTargets]
  | cons t rest ih =>
    intro s
    cases t with
    | name id =>
      simp [assignTargets, ih, capture_step, isNameTarget]
      omega
    | attr o f => simp [assignTargets, ih, isNameTarget]

theorem capture_steps_mono (s : BusinessRuleDebugger) (lineno : Nat)
    (d : String) : s.steps <+: (capture_step s lineno d).steps :=
  List.prefix_append _ _

theorem assignTargets_steps_mono (line : Nat) (v : Val) (ts : List Target) :
    ∀ s : BusinessRuleDebugger,
      s.steps <+: (assignTargets line v s ts).steps := by
  induction ts with
  | nil => intro s; exact List.prefix_rfl
  | cons t rest ih =>
    intro s
    cases t with
    | name id =>
      simp only [assignTargets]
      exact (capture_steps_mono { s with locals := setVar s.locals id v } line
        (id ++ " = " ++ reprValF (s.heap.length + 1) s.heap v)).trans (ih _)
    | attr o f =>
      simp only [assignTargets]
      exact ih s

theorem assignTargets_locals (line : Nat) (v : Val) (ts : List Target) :
    ∀ (s : BusinessRuleDebugger) (id : String),
      (Target.name id ∈ ts ∨ lookupVar s.locals id = some v) →
      lookupVar (assignTargets line v s ts).locals id = some v := by
  induction ts with
  | nil =>
    intro s id h
    rcases h with h | h
    · cases h
    · simpa [assignTargets] using h
  | cons t rest ih =>
    intro s id h
    cases t with
    | name id2 =>
      apply ih
      by_cases hid : id = id2
      · subst hid
        right
        simp [capture_step, lookupVar_setVar_self]
      · rcases h with h | h
        · rcases List.mem_cons.mp h with h0 | h0
          · cases h0; exact absurd rfl hid
          · left; exact h0
        · right
          simpa [capture_step, lookupVar_setVar_other _ _ _ _ hid] using h
    | attr o f =>
      apply ih
      rcases h with h | h
      · rcases List.mem_cons.mp h with h0 | h0
        · cases h0
        · left; exact h0
      · right; exact h

mutual

/-- Executing a statement only ever appends to `self.steps`. -/
theorem visit_steps_mono (st : Stmt) (s : BusinessRuleDebugger) :
    s.steps <+: (visit s st).1.steps := by
  cases st with
  | assign line targets value =>
    rcases he : eval_expression s.locals s.heap value with ⟨h1, d, e | v⟩
    · simp only [visit, he]
      exact List.prefix_rfl
    · simp only [visit, he]
      exact assignTargets_steps_mono line v targets { s with heap := h1 }
  | ifStmt line test body orelse =>
    rcases he : eval_expression s.locals s.heap test with ⟨h1, d, e | c⟩
    · simp only [visit, he]
      exact List.prefix_rfl
    · simp only [visit, he]
      rcases hv : visitList (capture_step { s with heap := h1 } line
          ("if " ++ expr_to_string test ++ ": # " ++
            strValF (h1.length + 1) h1 c)) orelse with ⟨s3, d2, r⟩
      have h2 := visitList_steps_mono orelse (capture_step { s with heap := h1 }
        line ("if " ++ expr_to_string test ++ ": # " ++
          strValF (h1.length + 1) h1 c))
      rw [hv] at h2
      have h3 := (capture_steps_mono { s with heap := h1 } line
        ("if " ++ expr_to_string test ++ ": # " ++
          strValF (h1.length + 1) h1 c)).trans h2
      simp only [hv]
      by_cases hc : truthy h1 c <;> simp [hc] <;> exact h3
  | exprStmt line value =>
    rcases he : eval_expression s.locals s.heap value with ⟨h1, d, e | v⟩
    · simp only [visit, he]
      exact List.prefix_rfl
    · simp only [visit, he]
      exact capture_steps_mono { s with heap := h1 } line
        ("Expression result: " ++ reprValF (h1.length + 1) h1 v)

theorem visitList_steps_mono (l : List Stmt) (s : BusinessRuleDebugger) :
    s.steps <+: (visitList s l).1.steps := by
  cases l with
  | nil => exact List.prefix_rfl
  | cons st rest =>
    rcases hv : visit s st with ⟨s1, d1, r⟩
    have h1 := visit_steps_mono st s
    rw [hv] at h1
    cases r with
    | some e => simp only [visitList, hv]; exact h1
    | none =>
      rcases hr : visitList s1 rest with ⟨s2, d2, r2⟩
      have h2 := visitList_steps_mono rest s1
      rw [hr] at h2
      simp only [visitList, hv, hr]
      exact h1.trans h2

end

/-- Once a statement raises, appending further statements to the program
changes nothing: they are never visited. -/
theorem visitList_append_error (l1 : List Stmt) :
    ∀ (s : BusinessRuleDebugger) (l2 : List Stmt) (s1 : BusinessRuleDebugger)
      (d : List String) (e : Err),
      visitList s l1 = (s1, d, some e) →
      visitList s (l1 ++ l2) = (s1, d, some e) := by
  induction l1 with
  | nil =>
    intro s l2 s1 d e h
    simp [visitList] at h
  | cons st rest ih =>
    intro s l2 s1 d e h
    rcases hv : visit s st with ⟨sa, da, r⟩
    cases r with
    | some e0 =>
      simp only [visitList, hv] at h
      simp only [List.cons_append, visitList, hv]
      exact h
    | none =>
      rcases hrest : visitList sa rest with ⟨sb, db, rb⟩
      simp only [visitList, hv, hrest, Prod.mk.injEq] at h
      obtain ⟨rfl, rfl, hrb⟩ := h
      subst hrb
      have hih := ih sa l2 sb db e hrest
      simp only [List.cons_append, visitList, hv, List.append_eq, hih]

theorem err_msg_ne_empty (e : Err) : Err.msg e ≠ "" := by
  cases e with
  | nameErr id =>
    intro h
    have h2 := congrArg String.length h
    simp only [Err.msg, String.length_append] at h2
    have h3 : (0 : Nat) < ("name \x27" : String).length := by decide
    have h4 : ("" : String).length = 0 := by decide
    omega
  | noAttr meth =>
    intro h
    have h2 := congrArg String.length h
    simp only [Err.msg, String.length_append] at h2
    have h3 : (0 : Nat) < ("object has no attribute " : String).length := by decide
    have h4 : ("" : String).length = 0 := by decide
    omega
  | zeroDiv => decide
  | notCallable => decide
  | noLen => decide
  | badAbs => decide
  | missingLogArg => decide
  | badRef => decide
  | badOperand => decide

/-- C1: the claim says the interpreter executes exactly one branch — the
true branch when the test is truthy — so that for
`x = True; if x: A() else: B()` only A's step appears and B's never does.
The code violates this: `visit_If` iterates `node.orelse` in both arms of
`if condition:`, so with a true test the steps are the assignment, the test
step, and B's expression step — A's step never appears.  This theorem
evaluates the embedded code at that failing input. -/
theorem c1_true_branch_never_runs :
    (debug_business_rule progC1).debugSteps.map (fun st => st.output)
      = ["x = True", "if x: # True", "Expression result: \x27B\x27"]
    ∧ ((debug_business_rule progC1).debugSteps.all
        (fun st => st.output != "Expression result: \x27A\x27")) = true :=
  ⟨rfl, rfl⟩

/-- C2 counterexample: the claim says the concrete scenario yields exactly
3 step records; the embedded code yields 4 (the conditional-test step is
also captured). -/
theorem c2_counterexample_four_steps :
    (debug_business_rule progC2).debugSteps.length = 4
    ∧ ¬ (debug_business_rule progC2).debugSteps.length = 3 :=
  ⟨rfl, by decide⟩

/-- C2 amended: the scenario yields exactly 4 step records — the
assignment of True, the assignment of False, the conditional-test step
reporting False, and the `log_message("b")` branch result (not `"m"`; the
only emitted log line is `LOG: b`). -/
theorem c2_amended_steps :
    (debug_business_rule progC2).debugSteps =
      [{ line := 1, vars := [("new_bool", Val.bool true)],
         output := "new_bool = True", error := Option.none },
       { line := 2, vars := [("new_bool", Val.bool false)],
         output := "new_bool = False", error := Option.none },
       { line := 3, vars := [("new_bool", Val.bool false)],
         output := "if new_bool: # False", error := Option.none },
       { line := 6, vars := [("new_bool", Val.bool false)],
         output := "Expression result: \x27b\x27", error := Option.none }]
    ∧ (execute_code initDebugger progC2).2.2 = ["LOG: b"] :=
  ⟨rfl, rfl⟩

/-- C8: the claim says any identifier outside the Environment and the
fixed registry fails with `UnknownNameError` and no outside capability is
reachable.  The code puts the host's whole `__builtins__` into
`self.globals`, so `len` — neither bound nor in the `log_message`/`log`
registry — resolves and runs: `x = len("abc")` succeeds with `x = 3` and
no error.  (A genuinely unknown name still raises `NameError`.)  This
theorem evaluates the embedded code at that failing input. -/
theorem c8_builtins_reachable :
    lookupVar initDebugger.locals "len" = Option.none
    ∧ registryNames.contains "len" = false
    ∧ lookupName [] "len" = Except.ok (Val.fn "len")
    ∧ (debug_business_rule progC8).debugSteps.map (fun st => (st.output, st.error))
        = [("x = 3", Option.none)]
    ∧ eval_expression [] [] (Expr.name "flurb")
        = ([], [], Except.error (Err.nameErr "flurb")) :=
  ⟨rfl, rfl, rfl, rfl, rfl⟩

/-- C9: the step-control marker's counter starts at 0, each invocation
increments it by exactly one and returns true (continue) in step mode, and
after `k` invocations the counter equals `k`. -/
theorem c9_step_counter :
    initStepControl.current_step = 0
    ∧ initStepControl.mode = "step"
    ∧ (∀ sc : StepControl,
        (stepControlCall sc).1.current_step = sc.current_step + 1
        ∧ (stepControlCall sc).2 = true)
    ∧ (∀ k : Nat, (iterateMarker k initStepControl).current_step = k) := by
  have key : ∀ (k : Nat) (sc : StepControl),
      (iterateMarker k sc).current_step = sc.current_step + k := by
    intro k
    induction k with
    | zero => intro sc; simp [iterateMarker]
    | succ n ih =>
      intro sc
      rw [iterateMarker, ih]
      simp [stepControlCall]
      omega
  refine ⟨rfl, rfl, fun sc => ⟨rfl, rfl⟩, fun k => ?_⟩
  rw [key k initStepControl]
  simp [initStepControl]

/-- C3: for every loop with a loop-completion branch over a non-empty
sequence — if no iteration reaches a `break`, the completion branch's
steps appear exactly once after all iterations' steps; if some iteration
reaches a `break`, the loop exits with that iteration's steps and the
completion branch's steps never appear.  (`runForElse` is modelled from
the spec; see its doc comment.) -/
theorem c3_loop_completion_branch {α β : Type} (body : α → List β × Bool)
    (elseSteps : List β) (xs : List α) (_hne : xs ≠ []) :
    ((∀ x ∈ xs, (body x).2 = false) →
      runForElse body elseSteps xs
        = (xs.map (fun x => (body x).1)).flatten ++ elseSteps)
    ∧ (∀ (pre : List α) (x : α) (post : List α), xs = pre ++ x :: post →
        (∀ y ∈ pre, (body y).2 = false) → (body x).2 = true →
        runForElse body elseSteps xs
          = (pre.map (fun y => (body y).1)).flatten ++ (body x).1) := by
  have part1 : ∀ l : List α, (∀ x ∈ l, (body x).2 = false) →
      runForElse body elseSteps l
        = (l.map (fun x => (body x).1)).flatten ++ elseSteps := by
    intro l
    induction l with
    | nil => intro _; simp [runForElse]
    | cons x rest ih =>
      intro hall
      have hx := hall x (List.mem_cons_self x rest)
      rcases hb : body x with ⟨st, brk⟩
      rw [hb] at hx
      simp only at hx
      subst hx
      rw [runForElse, hb]
      simp only
      rw [ih (fun y hy => hall y (List.mem_cons_of_mem x hy))]
      simp [hb, List.flatten]
  have part2 : ∀ (pre : List α) (x : α) (post : List α),
      (∀ y ∈ pre, (body y).2 = false) → (body x).2 = true →
      runForElse body elseSteps (pre ++ x :: post)
        = (pre.map (fun y => (body y).1)).flatten ++ (body x).1 := by
    intro pre
    induction pre with
    | nil =>
      intro x post _ hx
      rcases hb : body x with ⟨st, brk⟩
      rw [hb] at hx
      simp only at hx
      subst hx
      simp [runForElse, hb]
    | cons y pre2 ih =>
      intro x post hall hx
      have hy := hall y (List.mem_cons_self y pre2)
      rcases hby : body y with ⟨sty, brky⟩
      rw [hby] at hy
      simp only at hy
      subst hy
      rw [List.cons_append, runForElse, hby]
      simp only
      rw [ih x post (fun z hz => hall z (List.mem_cons_of_mem y hz)) hx]
      simp [hby, List.flatten, List.append_assoc]
  exact ⟨part1 xs, fun pre x post heq h1 h2 => by rw [heq]; exact part2 pre x post h1 h2⟩

/-- C3 witness: over the sequence `[4, 12]` with a body that breaks on 4
(as in the `testClasses` loop the first element's `age == 4` branch hits
`break`), the loop emits only the first iteration's steps and the
completion branch's steps never appear. -/
theorem c3_loop_completion_witness :
    ([4, 12] : List Nat) ≠ []
    ∧ runForElse bodyW ["RR"] [4, 12]
        = (([] : List Nat).map (fun y => (bodyW y).1)).flatten ++ (bodyW 4).1
    ∧ runForElse bodyW ["RR"] [4, 12] = ["4"] := by
  refine ⟨by decide, ?_, by decide⟩
  exact (c3_loop_completion_branch bodyW ["RR"] [4, 12] (by decide)).2
    [] 4 [12] rfl (by simp) (by decide)

/-- C4 counterexample: the claim says the evaluated value is bound to
every target — a target name or a target attribute path — with one step
per target.  For `r.age = 5` (one attribute-path target) the code produces
no binding and no step at all: `visit_Assign` silently skips every target
that is not an `ast.Name`. -/
theorem c4_counterexample_attr_target_skipped :
    (debug_business_rule progC4).debugSteps = []
    ∧ (execute_code initDebugger progC4).2.1.locals = []
    ∧ ¬ (debug_business_rule progC4).debugSteps.length = 1 :=
  ⟨rfl, rfl, by decide⟩

/-- C4 amended: for every assignment statement the right-hand expression
is evaluated exactly once (the statement's emitted output is exactly the
single evaluation's), the resulting value is bound to every plain-name
target with one step record per plain-name target, and targets that are
attribute paths are skipped — no binding and no step — so the step count
equals the number of name targets, not of all targets. -/
theorem c4_amended_assign_semantics (s : BusinessRuleDebugger) (line : Nat)
    (targets : List Target) (e : Expr) (h1 : Heap) (d : List String) (v : Val)
    (he : eval_expression s.locals s.heap e = (h1, d, Except.ok v)) :
    (visit s (.assign line targets e)).2.2 = Option.none
    ∧ (visit s (.assign line targets e)).2.1 = d
    ∧ (visit s (.assign line targets e)).1.steps.length
        = s.steps.length + (targets.filter (fun t => isNameTarget t)).length
    ∧ (visit s (.assign line targets e)).1.heap = h1
    ∧ ∀ id : String, Target.name id ∈ targets →
        lookupVar (visit s (.assign line targets e)).1.locals id = some v := by
  have hv : visit s (.assign line targets e)
      = (assignTargets line v { s with heap := h1 } targets, d, Option.none) := by
    simp only [visit, he]
  refine ⟨by rw [hv], by rw [hv], ?_, ?_, ?_⟩
  · rw [hv]
    exact assignTargets_steps_len line v targets { s with heap := h1 }
  · rw [hv]
    exact assignTargets_heap line v targets { s with heap := h1 }
  · intro id hid
    rw [hv]
    exact assignTargets_locals line v targets { s with heap := h1 } id (Or.inl hid)

/-- C4 witness: the two-target assignment `a = b = 5` produces no error,
no printed output, two step records, and binds both names to 5. -/
theorem c4_assign_witness :
    (visit initDebugger
        (.assign 1 [.name "a", .name "b"] (.const (.cint 5)))).2.2 = Option.none
    ∧ (visit initDebugger
        (.assign 1 [.name "a", .name "b"] (.const (.cint 5)))).2.1 = []
    ∧ (visit initDebugger
        (.assign 1 [.name "a", .name "b"] (.const (.cint 5)))).1.steps.length
        = initDebugger.steps.length
          + (([.name "a", .name "b"] : List Target).filter
              (fun t => isNameTarget t)).length
    ∧ (visit initDebugger
        (.assign 1 [.name "a", .name "b"] (.const (.cint 5)))).1.heap = []
    ∧ ∀ id : String,
        Target.name id ∈ ([.name "a", .name "b"] : List Target) →
        lookupVar (visit initDebugger
          (.assign 1 [.name "a", .name "b"] (.const (.cint 5)))).1.locals id
          = some (Val.int 5) :=
  c4_amended_assign_semantics initDebugger 1 [.name "a", .name "b"]
    (.const (.cint 5)) [] [] (Val.int 5) rfl

/-- C5 counterexample: the claim says every snapshot is a deep,
independent copy, so mutating any mutable value after step N leaves step
N's snapshot unchanged.  Running `lst = [1]; lst.append(2)`: step 1's
snapshot stores the list by reference (`listRef 0`); the heap cell it
points to holds `[1]` at capture time and `[1, 2]` after the append, and
the two renderings differ — the earlier snapshot's observable value was
changed retroactively. -/
theorem c5_counterexample_list_alias :
    ((execute_code initDebugger progC5).1.map (fun st => lookupVar st.vars "lst"))
      = [some (Val.listRef 0), some (Val.listRef 0)]
    ∧ (visitList initDebugger
        [.assign 1 [.name "lst"] (.listLit [.const (.cint 1)])]).1.heap
      = [HObj.hlist [Val.int 1]]
    ∧ (execute_code initDebugger progC5).2.1.heap
      = [HObj.hlist [Val.int 1, Val.int 2]]
    ∧ strValF 2 [HObj.hlist [Val.int 1]] (Val.listRef 0)
      ≠ strValF 2 [HObj.hlist [Val.int 1, Val.int 2]] (Val.listRef 0) :=
  ⟨rfl, rfl, rfl, by decide⟩

/-- C5 amended: a snapshot entry is the bound value itself — a shared
reference, not an independent copy — whenever the value is JSON-encodable
(so later mutation of such a value is visible through earlier snapshots),
and is the value's display string formed at capture time whenever it is
not encodable (a Record-instance, a function); a string entry renders the
same under every later heap, so only those entries are immune to later
mutation. -/
theorem c5_amended_snapshot_stability (fuel : Nat) (h : Heap) (v : Val) :
    (encodableF fuel h v = true → cleanVar fuel h v = v)
    ∧ (encodableF fuel h v = false →
        cleanVar fuel h v = Val.str (strValF fuel h v)
        ∧ ∀ (h2 : Heap) (f2 : Nat),
            strValF f2 h2 (cleanVar fuel h v) = strValF fuel h v) := by
  constructor
  · intro henc
    simp [cleanVar, henc]
  · intro henc
    refine ⟨by simp [cleanVar, henc], ?_⟩
    intro h2 f2
    simp [cleanVar, henc, strValF]

/-- C5 witness: a record instance is not encodable; its snapshot entry is
the display string `<Test object at 0x0>`, and rendering that entry under
a different heap and fuel returns the same string. -/
theorem c5_snapshot_witness :
    encodableF 1 [HObj.hrec "Test" [("age", Val.int 4)]] (Val.recRef 0) = false
    ∧ cleanVar 1 [HObj.hrec "Test" [("age", Val.int 4)]] (Val.recRef 0)
        = Val.str "<Test object at 0x0>"
    ∧ strValF 5 [] (cleanVar 1 [HObj.hrec "Test" [("age", Val.int 4)]]
        (Val.recRef 0)) = "<Test object at 0x0>"
    ∧ cleanVar 1 [] (Val.int 3) = Val.int 3 := by
  have h := (c5_amended_snapshot_stability 1
    [HObj.hrec "Test" [("age", Val.int 4)]] (Val.recRef 0)).2 (by decide)
  have h0 := (c5_amended_snapshot_stability 1 [] (Val.int 3)).1 (by decide)
  exact ⟨by decide, h.1.trans (by decide), (h.2 [] 5).trans (by decide), h0⟩

/-- C6 counterexample: the claim says every step record's snapshot holds
the string form of every unencodable bound value.  Running
`f = log_message; 1 // 0`: the step captured by `capture_step` does hold
the string form, but the terminal error step appended by `execute_code`
stores `dict(self.locals)` raw — its snapshot holds the function object
itself, which is not encodable and not a string. -/
theorem c6_counterexample_error_step_raw :
    ((debug_business_rule progC6).debugSteps.map (fun st => st.vars))
      = [[("f", Val.str "<function log_message>")],
         [("f", Val.fn "log_message")]]
    ∧ encodableF 1 [] (Val.fn "log_message") = false
    ∧ (∀ s : String, Val.fn "log_message" ≠ Val.str s) :=
  ⟨rfl, rfl, fun _ h => Val.noConfusion h⟩

/-- C6 amended: snapshots captured by `capture_step` apply the fallback
per binding — capture is total, appends exactly one step, keeps every
binding's name, replaces each unencodable value by its string form, and
the resulting snapshot is wholly encodable, so one unencodable binding
never prevents capture of the others.  The terminal error step of
`execute_code`, however, stores the bindings raw, without the fallback
(see the counterexample). -/
theorem c6_amended_capture_safety (s : BusinessRuleDebugger) (lineno : Nat)
    (descr : String) (fuel : Nat) (h : Heap) (env : Env) (hf : 0 < fuel) :
    (capture_step s lineno descr).steps
      = s.steps ++ [{ line := lineno,
                      vars := captureVars (s.heap.length + 1) s.heap s.locals,
                      output := descr, error := Option.none }]
    ∧ (captureVars fuel h env).map Prod.fst = env.map Prod.fst
    ∧ (∀ p ∈ captureVars fuel h env, encodableF fuel h p.2 = true)
    ∧ (∀ p ∈ env, encodableF fuel h p.2 = false →
        (p.1, Val.str (strValF fuel h p.2)) ∈ captureVars fuel h env) := by
  obtain ⟨f0, rfl⟩ : ∃ f0, fuel = f0 + 1 := ⟨fuel - 1, by omega⟩
  refine ⟨rfl, ?_, ?_, ?_⟩
  · induction env with
    | nil => rfl
    | cons p rest ih => simp [captureVars] at ih ⊢
  · intro p hp
    obtain ⟨q, hq, hpq⟩ := List.mem_map.mp hp
    subst hpq
    by_cases hq2 : encodableF (f0 + 1) h q.2
    · simp only [cleanVar, hq2, if_true]
    · simp [cleanVar, hq2, encodableF]
  · intro p hp hne
    exact List.mem_map.mpr ⟨p, hp, by simp [cleanVar, hne]⟩

/-- C6 witness: capturing a state whose single binding is the
(unencodable) `log_message` function appends one step whose snapshot maps
`f` to the function's string form. -/
theorem c6_capture_witness :
    (capture_step { steps := [], locals := [("f", Val.fn "log_message")],
                    heap := [], line_number := 0 } 7 "d").steps
      = ([] : List StepRec) ++ [{ line := 7,
                                  vars := captureVars 1 [] [("f", Val.fn "log_message")],
                                  output := "d", error := Option.none }]
    ∧ (captureVars 1 [] [("f", Val.fn "log_message")]).map Prod.fst
        = ([("f", Val.fn "log_message")] : Env).map Prod.fst
    ∧ (∀ p ∈ captureVars 1 [] [("f", Val.fn "log_message")],
        encodableF 1 [] p.2 = true)
    ∧ (∀ p ∈ ([("f", Val.fn "log_message")] : Env),
        encodableF 1 [] p.2 = false →
        (p.1, Val.str (strValF 1 [] p.2))
          ∈ captureVars 1 [] [("f", Val.fn "log_message")]) :=
  c6_amended_capture_safety
    { steps := [], locals := [("f", Val.fn "log_message")],
      heap := [], line_number := 0 } 7 "d" 1 [] [("f", Val.fn "log_message")]
    (by decide)

/-- C7: if evaluating any statement raises, the remaining statements are
never executed (appending them to the program changes nothing in the
result), every step captured before the failure is preserved unchanged
(the prior steps are a prefix, and the returned list begins with exactly
the steps gathered so far), and exactly one terminal step with a
non-empty error message is appended. -/
theorem c7_error_containment (s s1 : BusinessRuleDebugger)
    (prog suff : List Stmt) (d : List String) (e : Err)
    (he : visitList s prog = (s1, d, some e)) :
    (execute_code s (prog ++ suff)).1
      = s1.steps ++ [{ line := s1.line_number, vars := s1.locals,
                       output := "Error: " ++ Err.msg e,
                       error := some (Err.msg e) }]
    ∧ Err.msg e ≠ ""
    ∧ s.steps <+: s1.steps := by
  have happ := visitList_append_error prog s suff s1 d e he
  refine ⟨?_, err_msg_ne_empty e, ?_⟩
  · simp only [execute_code, happ]
  · have hm := visitList_steps_mono prog s
    rw [he] at hm
    exact hm

/-- C7 witness: for the program `7 // 0` followed by a further assignment,
the returned step list is exactly the single terminal error step with the
division-by-zero message; the appended assignment never runs. -/
theorem c7_error_witness :
    (execute_code initDebugger
        (progC7 ++ [Stmt.assign 2 [Target.name "z"] (Expr.const (Const.cint 1))])).1
      = [{ line := 0, vars := [],
             output := "Error: integer division or modulo by zero",
             error := some "integer division or modulo by zero" }]
    ∧ Err.msg Err.zeroDiv ≠ ""
    ∧ ([] : List StepRec) <+: [] := by
  have h := c7_error_containment initDebugger initDebugger progC7
    [Stmt.assign 2 [Target.name "z"] (Expr.const (Const.cint 1))] [] Err.zeroDiv rfl
  exact h

end BR

